import Mathlib

/-!
Verification of the vibe-notify idle-detection + command-extraction core.

The development shallowly embeds the two core components of the repository:

* `src/detection/chatIdleDetector.ts` — the per-document debounce state
  machine (`onTextDocumentChange`, `onTextDocumentClose`, `onDocumentIdle`).
  Timers are modelled explicitly: a `World` holds the pool of pending
  `setTimeout` callbacks (each with its captured closure content), the
  `documentStates` map, the live text of every document, and the list of
  idle events emitted so far.  The host event loop is modelled by a step
  relation (`stepLabel` / `Reachable`) and by a deterministic timed
  executor (`processEdits` / `flushAll`) for debounce-timing statements.
* `src/parse/extractCommands.ts` — the fenced-block scanner, the staged
  candidate selection, the shell-likeness heuristic, line cleaning and
  dialect inference.  Text is modelled as `List Char`; the JavaScript
  regexes are translated operation by operation.
* `src/config.ts` — `matchesChat`, with regex construction/evaluation
  abstracted as a fallible function (JS `new RegExp` can throw).
-/

namespace VibeNotify

/-! ## Idle detector: data model (chatIdleDetector.ts) -/

/-- Configuration values read by the detector: `silenceMs` and the matcher
predicate (`config.matchesChat`), abstracted as a boolean predicate on the
document key as in the spec's external-interface description. -/
structure Cfg where
  silenceMs : Nat
  matchers : String → Bool

/-- Model of `DocumentState` from chatIdleDetector.ts.  `timeout` holds the id of
the pending debounce timer, if any. -/
structure DocState where
  timeout : Option Nat
  lastLength : Nat
  lastVersion : Nat
  lastContent : String
  changeCount : Nat
  source : String
deriving Repr, DecidableEq

/-- A pending `setTimeout` callback: its handle, the document key and the
content captured by the closure at arm time, and its due time. -/
structure Timer where
  id : Nat
  key : String
  deadline : Nat
  captured : String
deriving Repr, DecidableEq

/-- Model of `IdleEvent` from chatIdleDetector.ts (document modelled by its key). -/
structure IdleEvent where
  document : String
  previousContent : String
  currentContent : String
  changesSinceLastIdle : Nat
deriving Repr, DecidableEq

/-- The whole detector world: the `documentStates` map, the pool of pending
timers, the live text of every document, the timer-handle counter and the
events emitted so far. -/
structure World where
  enabled : Bool
  states : String → Option DocState
  timers : List Timer
  live : String → String
  nextId : Nat
  events : List IdleEvent

/-- Pointwise update of the `documentStates` map. -/
def upd (f : String → Option DocState) (k : String) (v : Option DocState) :
    String → Option DocState :=
  fun q => if q = k then v else f q

/-- A document edit changes the live text of that document (this happens in
the host before the change event is delivered). -/
def setLive (w : World) (key content : String) : World :=
  { w with live := fun q => if q = key then content else w.live q }

/-- Model of `state.timeout = setTimeout(... , silenceMs)` at the end of
`onTextDocumentChange`: schedule a fresh timer capturing `currentContent`
and record its handle in the document's state. -/
def armTimer (cfg : Cfg) (w : World) (key captured : String) (now : Nat) : World :=
  { w with
    timers := w.timers ++ [⟨w.nextId, key, now + cfg.silenceMs, captured⟩],
    states := upd w.states key ((w.states key).map fun s => { s with timeout := some w.nextId }),
    nextId := w.nextId + 1 }

/-- Model of `onTextDocumentChange` (chatIdleDetector.ts lines 53–106): gate on
`isEnabled` and `config.matchesChat`; initialize or update the document
state (clearing any pending timer); then arm a new timer capturing the
document's current content. -/
def onTextDocumentChange (cfg : Cfg) (w : World) (key : String) (version now : Nat) : World :=
  if w.enabled = false then w
  else if cfg.matchers key = false then w
  else
    let currentContent := w.live key
    match w.states key with
    | none =>
      let st : DocState :=
        { timeout := none, lastLength := currentContent.length, lastVersion := version,
          lastContent := currentContent, changeCount := 1, source := key }
      armTimer cfg { w with states := upd w.states key (some st) } key currentContent now
    | some st =>
      let timers' := match st.timeout with
        | some tid => w.timers.filter (fun t => t.id != tid)
        | none => w.timers
      let st' : DocState :=
        { st with lastLength := currentContent.length, lastVersion := version,
                  changeCount := st.changeCount + 1, source := key }
      armTimer cfg { w with timers := timers', states := upd w.states key (some st') } key currentContent now

/-- Model of `onTextDocumentClose` (lines 108–118): clear the pending timer, if any,
and delete the document's state. -/
def onTextDocumentClose (w : World) (key : String) : World :=
  match w.states key with
  | none => w
  | some st =>
    let timers' := match st.timeout with
      | some tid => w.timers.filter (fun t => t.id != tid)
      | none => w.timers
    { w with timers := timers', states := upd w.states key none }

/-- Model of `onDocumentIdle` (lines 133–157): the debounce callback.  Looks the
state up, nulls the timer handle, emits the idle event built from the
cached `lastContent`, the closure-captured `currentContent` and the
accumulated `changeCount`, then stores the new content and resets the
counter. -/
def onDocumentIdle (w : World) (documentKey currentContent : String) : World :=
  match w.states documentKey with
  | none => w
  | some st =>
    { w with
      states := upd w.states documentKey
        (some { st with timeout := none, lastContent := currentContent, changeCount := 0 }),
      events := w.events ++
        [{ document := st.source, previousContent := st.lastContent,
           currentContent := currentContent, changesSinceLastIdle := st.changeCount }] }

/-- The host firing a scheduled timer: the callback is removed from the
pending pool and `onDocumentIdle` runs with the closure's captured values.
Firing an unknown handle does nothing. -/
def fireTimer (w : World) (tid : Nat) : World :=
  match w.timers.find? (fun t => t.id == tid) with
  | none => w
  | some t =>
    onDocumentIdle { w with timers := w.timers.filter (fun t2 => t2.id != tid) } t.key t.captured

/-- Host events driving the detector. -/
inductive Label where
  | edit (key content : String) (version now : Nat)
  | close (key : String)
  | fire (tid : Nat)

/-- Whether a label is an edit of document `k`. -/
def Label.isEditOn (k : String) : Label → Bool
  | .edit key _ _ _ => key == k
  | _ => false

/-- One host event. -/
def stepLabel (cfg : Cfg) (w : World) : Label → World
  | .edit key content version now => onTextDocumentChange cfg (setLive w key content) key version now
  | .close key => onTextDocumentClose w key
  | .fire tid => fireTimer w tid

/-- A sequence of host events. -/
def runLabels (cfg : Cfg) (w : World) (ls : List Label) : World :=
  ls.foldl (stepLabel cfg) w

/-- The freshly constructed detector: no tracked documents, no timers. -/
def initWorld : World :=
  { enabled := true, states := fun _ => none, timers := [],
    live := fun _ => "", nextId := 0, events := [] }

/-- The detector states reachable from construction by host events. -/
inductive Reachable (cfg : Cfg) : World → Prop where
  | init : Reachable cfg initWorld
  | step {w : World} (l : Label) : Reachable cfg w → Reachable cfg (stepLabel cfg w l)

/-- Fire every timer whose deadline has been reached (the event loop runs
due callbacks before delivering a later change event).  Fuel bounds the
recursion; `timers.length` is always enough because callbacks never
schedule new timers. -/
def fireAllDue : Nat → World → Nat → World
  | 0, w, _ => w
  | fuel + 1, w, now =>
    match w.timers.find? (fun t => t.deadline ≤ now) with
    | none => w
    | some t => fireAllDue fuel (fireTimer w t.id) now

/-- Fire every remaining timer (time passes with no further edits). -/
def flushAll : Nat → World → World
  | 0, w => w
  | fuel + 1, w =>
    match w.timers with
    | [] => w
    | t :: _ => flushAll fuel (fireTimer w t.id)

/-- Deliver a list of timed edits (content, version, time) for one
document, firing due timers before each delivery. -/
def processEdits (cfg : Cfg) (key : String) (w : World) :
    List (String × Nat × Nat) → World
  | [] => w
  | (content, version, time) :: rest =>
    let w1 := fireAllDue w.timers.length w time
    processEdits cfg key (stepLabel cfg w1 (.edit key content version time)) rest

/-- Deliver the edits, then let the remaining silence elapse. -/
def runTrace (cfg : Cfg) (key : String) (edits : List (String × Nat × Nat)) : World :=
  let w := processEdits cfg key initWorld edits
  flushAll w.timers.length w

/-- Each subsequent edit arrives no earlier than the previous one and
strictly before the silence duration has elapsed since it. -/
def timesOk (silence : Nat) : Nat → List (String × Nat × Nat) → Bool
  | _, [] => true
  | tprev, (_, _, t) :: rest =>
    decide (tprev ≤ t) && decide (t < tprev + silence) && timesOk silence t rest

/-- Last element of a list, with a default for the empty list. -/
def lastD {α : Type} : α → List α → α
  | d, [] => d
  | _, e :: rest => lastD e rest

/-- Document `k` is untracked: no state entry and no pending timer. -/
def Quiet (k : String) (w : World) : Prop :=
  w.states k = none ∧ ∀ t ∈ w.timers, t.key ≠ k

/-- The detector world after `k` observed edits of document `key` in the
current debounce round: one pending timer (handle `i`, armed at time `tk`
with the text `ck` of the latest edit captured), `lastContent` still the
text `c1` cached when the round began, and no event emitted yet. -/
def midWorld (cfg : Cfg) (key c1 ck : String) (vk k i tk : Nat) : World :=
  { enabled := true,
    states := fun q => if q = key then
        some { timeout := some i, lastLength := ck.length, lastVersion := vk,
               lastContent := c1, changeCount := k, source := key } else none,
    timers := [⟨i, key, tk + cfg.silenceMs, ck⟩],
    live := fun q => if q = key then ck else "",
    nextId := i + 1,
    events := [] }

/-! ## Command extractor (parse/extractCommands.ts)

Text is modelled as `List Char`; JS string indices become character
positions.  Each JavaScript regex of the source is translated into an
explicit scanning function; `\s`, `\w`, `[a-zA-Z]` are the corresponding
character classes. -/

/-- Text as a list of characters. -/
abbrev Str := List Char

/-- Convert a Lean string literal to the character-list model. -/
def str (s : String) : Str := s.data

/-- The `\s` class (whitespace, ASCII range). -/
def isSpaceChar (c : Char) : Bool :=
  c == ' ' || c == '\t' || c == '\n' || c == '\r' ||
    c == Char.ofNat 11 || c == Char.ofNat 12

/-- The `[a-zA-Z]` class. -/
def isAsciiAlpha (c : Char) : Bool :=
  ('a' ≤ c && c ≤ 'z') || ('A' ≤ c && c ≤ 'Z')

/-- The `[0-9]` class. -/
def isDigitChar (c : Char) : Bool := '0' ≤ c && c ≤ '9'

/-- The `\w` class (`[A-Za-z0-9_]`). -/
def isWordChar (c : Char) : Bool := isAsciiAlpha c || isDigitChar c || c == '_'

/-- The `[a-zA-Z0-9_-]` class of the generic command pattern. -/
def isNameChar (c : Char) : Bool := isAsciiAlpha c || isDigitChar c || c == '_' || c == '-'

/-- Remove trailing whitespace. -/
def dropTrail (l : Str) : Str := (l.reverse.dropWhile isSpaceChar).reverse

/-- JS `String.prototype.trim` on the character-list model. -/
def trimChars (l : Str) : Str := dropTrail (l.dropWhile isSpaceChar)

/-- No leading whitespace. -/
def noLead : Str → Bool
  | [] => true
  | c :: _ => !isSpaceChar c

/-- No trailing whitespace. -/
def noTrail (l : Str) : Bool := noLead l.reverse

/-- ASCII lower-casing (JS `toLowerCase` on the characters these regexes
care about). -/
def lowerChar (c : Char) : Char := c.toLower

/-- JS `String.prototype.split('\n')`. -/
def splitOnNl : Str → List Str
  | [] => [[]]
  | c :: cs =>
    if c = '\n' then [] :: splitOnNl cs
    else
      match splitOnNl cs with
      | [] => [[c]]
      | p :: ps => (c :: p) :: ps

/-! ### Fence scanning: the loop over `/```([a-zA-Z]*)?\n([\s\S]*?)```/g` -/

/-- Split at the earliest occurrence of a closing triple backtick:
returns the content before it and the text after it (the non-greedy
`([\s\S]*?)` followed by a literal closing fence). -/
def splitClose : Str → Option (Str × Str)
  | '`' :: '`' :: '`' :: rest => some ([], rest)
  | [] => none
  | c :: cs => (splitClose cs).map (fun p => (c :: p.1, p.2))

/-- Try to match the fenced-block regex anchored at the head of `l`:
three backticks, a (possibly empty) run of letters, a newline, then the
shortest content closed by three backticks.  Returns the language tag, the
raw inner content and the total match length. -/
def tryFence : Str → Option (Str × Str × Nat)
  | '`' :: '`' :: '`' :: rest =>
    let lang := rest.takeWhile isAsciiAlpha
    match rest.drop lang.length with
    | '\n' :: rest3 =>
      match splitClose rest3 with
      | some p => some (lang, p.1, 3 + lang.length + 1 + p.1.length + 3)
      | none => none
    | _ => none
  | _ => none

/-- A fenced block as recorded by `extractCommands`: lower-cased language
tag, trimmed content, source offsets.  Blocks whose trimmed content is
empty are not recorded. -/
structure RawBlock where
  language : Str
  content : Str
  startIndex : Nat
  endIndex : Nat
deriving Repr, DecidableEq

/-- The `exec` loop: attempt a match at each position; on success record
the block (when its trimmed content is non-empty) and resume after the
match.  The fuel is the text length, enough since every step consumes at
least one character. -/
def scanFencedF : Nat → Str → Nat → List RawBlock
  | 0, _, _ => []
  | _ + 1, [], _ => []
  | fuel + 1, l@(_ :: cs), pos =>
    match tryFence l with
    | some (lang, content, len) =>
      let trimmed := trimChars content
      if trimmed.isEmpty then scanFencedF fuel (l.drop len) (pos + len)
      else
        { language := lang.map lowerChar, content := trimmed,
          startIndex := pos, endIndex := pos + len } ::
          scanFencedF fuel (l.drop len) (pos + len)
    | none => scanFencedF fuel cs (pos + 1)

/-- All fenced code blocks of a text. -/
def scanFenced (l : Str) : List RawBlock := scanFencedF l.length l 0

/-! ### The shell-likeness heuristic (`looksLikeShellCommands`) -/

/-- Test for `w` followed by at least one whitespace character (`^(w)\s+`). -/
def wordThenSpace (w : Str) (l : Str) : Bool :=
  w.isPrefixOf l &&
    (match l.drop w.length with
     | c :: _ => isSpaceChar c
     | [] => false)

/-- True when the position after a candidate word is a word boundary. -/
def nonWordNext : Str → Bool
  | [] => true
  | c :: _ => !isWordChar c

/-- Test for `w` followed by a word boundary (`^(w)\b`). -/
def wordThenBoundary (w : Str) (l : Str) : Bool :=
  w.isPrefixOf l && nonWordNext (l.drop w.length)

/-- The fixed line patterns of `looksLikeShellCommands`, in source order. -/
def shellPatternChecks : List (Str → Bool) :=
  [ fun l => [str "npm", str "yarn", str "pnpm", str "bun"].any (fun w => wordThenSpace w l),
    fun l => [str "git", str "docker", str "kubectl"].any (fun w => wordThenSpace w l),
    fun l => [str "ls", str "cd", str "mkdir", str "rm", str "cp", str "mv", str "cat",
        str "grep", str "find", str "curl", str "wget"].any (fun w => wordThenBoundary w l),
    fun l => [str "dir", str "copy", str "move", str "del", str "type"].any
        (fun w => wordThenBoundary w l),
    fun l =>
      match l with
      | c :: rest =>
        isAsciiAlpha c &&
          (match rest.dropWhile isNameChar with
           | c2 :: _ => isSpaceChar c2
           | [] => false)
      | [] => false,
    fun l =>
      match l with
      | '$' :: c :: _ => isSpaceChar c
      | _ => false,
    fun l =>
      match l with
      | 'P' :: 'S' :: rest =>
        (match rest.dropWhile isSpaceChar with
         | '>' :: _ => true
         | _ => false)
      | _ => false,
    fun l =>
      match l with
      | 'C' :: ':' :: '\\' :: rest => (rest.takeWhile (fun c => c != '\n')).contains '>'
      | _ => false ]

/-- A line matches some shell pattern. -/
def matchesShellPattern (l : Str) : Bool := shellPatternChecks.any (fun p => p l)

/-- Model of `content.split('\n').map(trim).filter(truthy)`. -/
def nonEmptyTrimmedLines (content : Str) : List Str :=
  ((splitOnNl content).map trimChars).filter (fun l => !l.isEmpty)

/-- Model of `looksLikeShellCommands` (extractCommands.ts lines 456–478).  The
source compares `commandLikeLines.length / lines.length > 0.5` with float
division; for list lengths this is exactly `2·m > n`. -/
def looksLikeShellCommands (content : Str) : Bool :=
  let lines := nonEmptyTrimmedLines content
  if lines.length = 0 then false
  else
    let commandLikeLines := lines.filter matchesShellPattern
    decide (2 * commandLikeLines.length > lines.length)

/-! ### Stage C keyword lookback -/

/-- Scan a text position by position; `p` is tested at positions lying on
a word boundary (start of text or preceded by a non-word character). -/
def scanBoundary (p : Str → Bool) : Bool → Str → Bool
  | _, [] => false
  | prevNonWord, c :: cs => (prevNonWord && p (c :: cs)) || scanBoundary p (!isWordChar c) cs

/-- The execution keywords of stage C. -/
def executionKeywords : List Str :=
  [str "run", str "execute", str "command", str "terminal", str "shell",
   str "type", str "enter"]

/-- Test for `/\b(run|execute|command|terminal|shell|type|enter)\b/i`. -/
def hasExecKeyword (l : Str) : Bool :=
  scanBoundary
    (fun l2 => executionKeywords.any (fun w => w.isPrefixOf l2 && nonWordNext (l2.drop w.length)))
    true (l.map lowerChar)

/-- Model of `text.substring(max(0, startIndex - 200), startIndex)`. -/
def beforeBlock (text : Str) (b : RawBlock) : Str :=
  (text.take b.startIndex).drop (b.startIndex - 200)

/-! ### Line cleaning (`parseCommandsFromBlock`)

The strip functions operate on single lines (the input was split at
newlines), mirroring the source's `line.replace(^pattern, '')` calls. -/

/-- Model of `line.replace(/^\$\s+/, '')`. -/
def stripDollar (l : Str) : Str :=
  match l with
  | '$' :: c :: rest => if isSpaceChar c then (c :: rest).dropWhile isSpaceChar else l
  | _ => l

/-- Model of `line.replace(/^PS\s*>\s*/, '')`. -/
def stripPS (l : Str) : Str :=
  match l with
  | 'P' :: 'S' :: rest =>
    (match rest.dropWhile isSpaceChar with
     | '>' :: r2 => r2.dropWhile isSpaceChar
     | _ => l)
  | _ => l

/-- The text after the last `'>'` (the greedy `.*` of `^C:\\.*>`). -/
def afterLastGt (l : Str) : Str := (l.reverse.takeWhile (fun c => c != '>')).reverse

/-- Model of `line.replace(/^C:\\.*>\s*/, '')`. -/
def stripCPath (l : Str) : Str :=
  match l with
  | 'C' :: ':' :: '\\' :: rest =>
    if rest.contains '>' then (afterLastGt rest).dropWhile isSpaceChar else l
  | _ => l

/-- Model of `line.replace(/^>\s+/, '')`. -/
def stripGt (l : Str) : Str :=
  match l with
  | '>' :: c :: rest => if isSpaceChar c then (c :: rest).dropWhile isSpaceChar else l
  | _ => l

/-- Test for `/^(\s*\||\s*\+|\s*-|\s*\*|\s*>|\s*<)/`: after optional whitespace the
line starts with a typical output marker. -/
def startsOutput (l : Str) : Bool :=
  match l.dropWhile isSpaceChar with
  | c :: _ => ['|', '+', '-', '*', '>', '<'].contains c
  | [] => false

/-- The per-line body of `parseCommandsFromBlock`'s loop: `none` when the
line is skipped, otherwise the cleaned command. -/
def processLine (l0 : Str) : Option Str :=
  let line := trimChars l0
  if line.isEmpty then none
  else if line.head? = some '#' then none
  else if (str "//").isPrefixOf line then none
  else
    let l5 := stripGt (stripCPath (stripPS (stripDollar line)))
    if l5.isEmpty then none
    else if startsOutput l5 then none
    else some l5

/-- Model of `parseCommandsFromBlock` (extractCommands.ts lines 483–513). -/
def parseCommandsFromBlock (content : Str) : List Str :=
  (splitOnNl content).filterMap processLine

/-! ### Dialect inference (`inferShellLanguage`) -/

/-- Model of `commands.join(' ')`. -/
def joinSpace (cmds : List Str) : Str := List.intercalate [' '] cmds

/-- The PowerShell verb prefixes. -/
def psVerbs : List Str :=
  [str "get-", str "set-", str "new-", str "remove-", str "invoke-",
   str "test-", str "start-", str "stop-"]

/-- Test for `/\$\w+\s*=/`. -/
def hasDollarAssign : Str → Bool
  | [] => false
  | '$' :: rest =>
    (let run := rest.takeWhile isWordChar
     !run.isEmpty &&
       (match (rest.drop run.length).dropWhile isSpaceChar with
        | '=' :: _ => true
        | _ => false)) ||
      hasDollarAssign rest
  | _ :: cs => hasDollarAssign cs

/-- Test for `/\[.*\]/`: a `'['` with a `']'` later on the same line. -/
def hasBracketPair : Str → Bool
  | [] => false
  | '[' :: rest => (rest.takeWhile (fun c => c != '\n')).contains ']' || hasBracketPair rest
  | _ :: cs => hasBracketPair cs

/-- One alternative of `/\b(dir|copy|move|del|type|echo\s+off|set\s+\w+=)/`
anchored at the current position. -/
def cmdAltAt (l : Str) : Bool :=
  [str "dir", str "copy", str "move", str "del", str "type"].any (fun w => w.isPrefixOf l) ||
    ((str "echo").isPrefixOf l &&
      (match l.drop 4 with
       | c :: rest2 => isSpaceChar c && (str "off").isPrefixOf ((c :: rest2).dropWhile isSpaceChar)
       | [] => false)) ||
    ((str "set").isPrefixOf l &&
      (match l.drop 3 with
       | c :: rest2 =>
         isSpaceChar c &&
           (let r := (c :: rest2).dropWhile isSpaceChar
            let run := r.takeWhile isWordChar
            !run.isEmpty &&
              (match r.drop run.length with
               | '=' :: _ => true
               | _ => false))
       | [] => false))

/-- The Unix builtins of the bash signature test. -/
def bashWords : List Str :=
  [str "ls", str "cd", str "mkdir", str "rm", str "cp", str "mv", str "cat",
   str "grep", str "find", str "chmod", str "chown"]

/-- Model of `inferShellLanguage` (extractCommands.ts lines 518–540): PowerShell
signatures, then CMD, then Unix builtins, defaulting to bash. -/
def inferShellLanguage (commands : List Str) : Str :=
  let allCommands := (joinSpace commands).map lowerChar
  if scanBoundary (fun l => psVerbs.any (fun w => w.isPrefixOf l)) true allCommands ||
      hasDollarAssign allCommands || hasBracketPair allCommands then str "powershell"
  else if scanBoundary cmdAltAt true allCommands then str "cmd"
  else if scanBoundary (fun l => bashWords.any (fun w => w.isPrefixOf l)) true allCommands then
    str "bash"
  else str "bash"

/-! ### `extractCommands` -/

/-- The recognized explicit shell tags. -/
def shellLanguages : List Str :=
  [str "bash", str "sh", str "zsh", str "powershell", str "pwsh", str "cmd"]

/-- The generic tags accepted by stage B. -/
def genericTags : List Str :=
  [str "text", str "plain", str "terminal", str "console", str "shell"]

/-- Stage A: blocks with an explicit recognized shell tag. -/
def stageA (blocks : List RawBlock) : List RawBlock :=
  blocks.filter (fun b => shellLanguages.contains b.language)

/-- Stage B: untagged or generic-tagged blocks whose content looks like
shell commands. -/
def stageB (blocks : List RawBlock) : List RawBlock :=
  (blocks.filter (fun b => b.language.isEmpty || genericTags.contains b.language)).filter
    (fun b => looksLikeShellCommands b.content)

/-- Stage C: blocks preceded (within the 200-character lookback) by an
execution keyword and whose content looks like shell commands. -/
def stageC (text : Str) (blocks : List RawBlock) : List RawBlock :=
  blocks.filter (fun b => hasExecKeyword (beforeBlock text b) && looksLikeShellCommands b.content)

/-- The extraction result. -/
structure ExtractedCommands where
  commands : List Str
  languageHint : Option Str
  rawBlocks : List RawBlock
deriving Repr, DecidableEq

/-- The body of `extractCommands`' loop over the selected blocks: append
the block's cleaned commands; set the language hint from the first block
with a recognized shell tag, never overwriting it. -/
def hintFold (acc : List Str × Option Str) (b : RawBlock) : List Str × Option Str :=
  let cmds := acc.1 ++ parseCommandsFromBlock b.content
  if acc.2.isNone && shellLanguages.contains b.language then (cmds, some b.language)
  else (cmds, acc.2)

/-- Model of `extractCommands` (extractCommands.ts lines 365–451). -/
def extractCommands (text : Str) (recentTextOnly : Bool := true) : ExtractedCommands :=
  let blocks := scanFenced text
  let shellBlocks := stageA blocks
  let candidateBlocks1 := if shellBlocks.isEmpty then stageB blocks else shellBlocks
  let candidateBlocks := if candidateBlocks1.isEmpty then stageC text blocks else candidateBlocks1
  if candidateBlocks.isEmpty then
    { commands := [], languageHint := none, rawBlocks := candidateBlocks }
  else
    let targetBlocks := if recentTextOnly then
        (match candidateBlocks.getLast? with
         | some b => [b]
         | none => [])
      else candidateBlocks
    let folded := targetBlocks.foldl hintFold ([], none)
    let hint := if folded.2.isNone && !folded.1.isEmpty then some (inferShellLanguage folded.1)
      else folded.2
    { commands := folded.1, languageHint := hint, rawBlocks := candidateBlocks }

/-! ## Configuration matching (config.ts) -/

/-- A `ChatMatcher` entry from configuration. -/
structure ChatMatcher where
  languageIdRegex : String
  schemeRegex : String
  titleRegex : String

/-- The document fields `matchesChat` inspects. -/
structure Document where
  languageId : String
  uriScheme : String
  fileName : String

/-- The body of the `try` block for one matcher: each `new RegExp(p).test(s)`
is modelled by a fallible `test` function (`new RegExp` throws on an invalid
pattern). -/
def matcherEval (test : String → String → Except String Bool) (m : ChatMatcher)
    (doc : Document) : Except String Bool := do
  let languageMatch ← test m.languageIdRegex doc.languageId
  let schemeMatch ← test m.schemeRegex doc.uriScheme
  let titleMatch ← test m.titleRegex doc.fileName
  pure (languageMatch && schemeMatch && titleMatch)

/-- Model of `matchesChat` (config.ts lines 102–120): try each matcher in order; a
matcher whose evaluation throws is caught, logged and treated as not
matching; the loop continues with the remaining matchers. -/
def matchesChat (test : String → String → Except String Bool)
    (matchers : List ChatMatcher) (doc : Document) : Bool :=
  match matchers with
  | [] => false
  | m :: rest =>
    match matcherEval test m doc with
    | .ok true => true
    | _ => matchesChat test rest doc

/-! ### Concrete instances for evaluation -/

/-- A concrete configuration whose matchers accept every document. -/
def cfgAll : Cfg := { silenceMs := 1500, matchers := fun _ => true }

/-- The world after one edit of document `"k"` with text `"hello"`. -/
def demoWorld : World := stepLabel cfgAll initWorld (.edit "k" "hello" 1 0)

/-- The timer armed by that edit. -/
def demoTimer : Timer := { id := 0, key := "k", deadline := 1500, captured := "hello" }

/-- A regex evaluator for which the pattern `"["` is invalid (as it is for
JS `new RegExp`) and every other pattern matches. -/
def testW : String → String → Except String Bool :=
  fun p _ => if p = "[" then .error "invalid" else .ok true

/-- A matcher with an invalid language pattern. -/
def badMatcher : ChatMatcher := { languageIdRegex := "[", schemeRegex := ".*", titleRegex := ".*" }

/-- A matcher whose patterns are all valid under `testW`. -/
def goodMatcher : ChatMatcher :=
  { languageIdRegex := "^markdown$", schemeRegex := ".*", titleRegex := ".*" }

/-- A concrete document. -/
def docW : Document := { languageId := "markdown", uriScheme := "file", fileName := "chat.md" }

/-! ## Theorems -/

@[simp] theorem upd_self (f : String → Option DocState) (k v) : upd f k v k = v := by
  simp [upd]

@[simp] theorem upd_other (f : String → Option DocState) (k v q) (h : q ≠ k) :
    upd f k v q = f q := by
  simp [upd, h]

/-! ### Branch equations for the handlers -/

theorem onChange_disabled {cfg : Cfg} {w : World} {key : String} {version now : Nat}
    (hen : w.enabled = false) :
    onTextDocumentChange cfg w key version now = w := by
  simp [onTextDocumentChange, hen]

theorem onChange_not_matched {cfg : Cfg} {w : World} {key : String} {version now : Nat}
    (hen : w.enabled = true) (hm : cfg.matchers key = false) :
    onTextDocumentChange cfg w key version now = w := by
  simp [onTextDocumentChange, hen, hm]

theorem onChange_new {cfg : Cfg} {w : World} {key : String} {version now : Nat}
    (hen : w.enabled = true) (hm : cfg.matchers key = true) (hs : w.states key = none) :
    onTextDocumentChange cfg w key version now =
      armTimer cfg
        { w with states := upd w.states key (some
            { timeout := none, lastLength := (w.live key).length, lastVersion := version,
              lastContent := w.live key, changeCount := 1, source := key }) }
        key (w.live key) now := by
  simp [onTextDocumentChange, hen, hm, hs]

theorem onChange_pending {cfg : Cfg} {w : World} {key : String} {version now : Nat}
    {st : DocState} {tid : Nat}
    (hen : w.enabled = true) (hm : cfg.matchers key = true)
    (hs : w.states key = some st) (hto : st.timeout = some tid) :
    onTextDocumentChange cfg w key version now =
      armTimer cfg
        { w with timers := w.timers.filter (fun t => t.id != tid),
                 states := upd w.states key (some
            { st with lastLength := (w.live key).length, lastVersion := version,
                      changeCount := st.changeCount + 1, source := key }) }
        key (w.live key) now := by
  simp [onTextDocumentChange, hen, hm, hs, hto]

theorem onChange_idleState {cfg : Cfg} {w : World} {key : String} {version now : Nat}
    {st : DocState}
    (hen : w.enabled = true) (hm : cfg.matchers key = true)
    (hs : w.states key = some st) (hto : st.timeout = none) :
    onTextDocumentChange cfg w key version now =
      armTimer cfg
        { w with states := upd w.states key (some
            { st with lastLength := (w.live key).length, lastVersion := version,
                      changeCount := st.changeCount + 1, source := key }) }
        key (w.live key) now := by
  simp [onTextDocumentChange, hen, hm, hs, hto]

theorem close_none {w : World} {key : String} (hs : w.states key = none) :
    onTextDocumentClose w key = w := by
  simp [onTextDocumentClose, hs]

theorem close_pending {w : World} {key : String} {st : DocState} {tid : Nat}
    (hs : w.states key = some st) (hto : st.timeout = some tid) :
    onTextDocumentClose w key =
      { w with timers := w.timers.filter (fun t => t.id != tid),
               states := upd w.states key none } := by
  simp [onTextDocumentClose, hs, hto]

theorem close_idle {w : World} {key : String} {st : DocState}
    (hs : w.states key = some st) (hto : st.timeout = none) :
    onTextDocumentClose w key = { w with states := upd w.states key none } := by
  simp [onTextDocumentClose, hs, hto]

theorem fire_missing {w : World} {tid : Nat}
    (hfind : w.timers.find? (fun t => t.id == tid) = none) :
    fireTimer w tid = w := by
  simp [fireTimer, hfind]

theorem fire_found {w : World} {tid : Nat} {t : Timer}
    (hfind : w.timers.find? (fun t => t.id == tid) = some t) :
    fireTimer w tid =
      onDocumentIdle { w with timers := w.timers.filter (fun t2 => t2.id != tid) }
        t.key t.captured := by
  simp [fireTimer, hfind]

theorem idle_none {w : World} {key c : String} (hs : w.states key = none) :
    onDocumentIdle w key c = w := by
  simp [onDocumentIdle, hs]

theorem idle_some {w : World} {key c : String} {st : DocState} (hs : w.states key = some st) :
    onDocumentIdle w key c =
      { w with
        states := upd w.states key
          (some { st with timeout := none, lastContent := c, changeCount := 0 }),
        events := w.events ++
          [{ document := st.source, previousContent := st.lastContent,
             currentContent := c, changesSinceLastIdle := st.changeCount }] } := by
  simp [onDocumentIdle, hs]

/-! ### Detector invariants -/

/-- The inductive invariant of reachable detector worlds: the detector is
enabled, pending timer handles are fresh and pairwise distinct, every
pending timer is the one recorded in its document's state, its captured
closure content is the document's live content, its document matches the
configured matchers, and every state's `source` is its own key. -/
structure Inv (cfg : Cfg) (w : World) : Prop where
  en : w.enabled = true
  idsLt : ∀ t ∈ w.timers, t.id < w.nextId
  idsDistinct : w.timers.Pairwise (fun a b => a.id ≠ b.id)
  refs : ∀ t ∈ w.timers, ∃ s, w.states t.key = some s ∧ s.timeout = some t.id
  caps : ∀ t ∈ w.timers, t.captured = w.live t.key
  mats : ∀ t ∈ w.timers, cfg.matchers t.key = true
  srcs : ∀ k s, w.states k = some s → s.source = k

theorem no_timer_of_none {cfg : Cfg} {w : World} (hInv : Inv cfg w) {k : String}
    (hk : w.states k = none) : ∀ t ∈ w.timers, t.key ≠ k := by
  intro t ht he
  obtain ⟨s, hs, -⟩ := hInv.refs t ht
  rw [he, hk] at hs
  exact Option.noConfusion hs

theorem timer_id_eq {cfg : Cfg} {w : World} (hInv : Inv cfg w) {k : String} {s : DocState}
    (hs : w.states k = some s) :
    ∀ t ∈ w.timers, t.key = k → s.timeout = some t.id := by
  intro t ht he
  obtain ⟨s', hs', hto⟩ := hInv.refs t ht
  rw [he, hs] at hs'
  cases hs'
  exact hto

theorem no_timer_of_timeout_none {cfg : Cfg} {w : World} (hInv : Inv cfg w) {k : String}
    {s : DocState} (hs : w.states k = some s) (hto : s.timeout = none) :
    ∀ t ∈ w.timers, t.key ≠ k := by
  intro t ht he
  have := timer_id_eq hInv hs t ht he
  rw [hto] at this
  exact Option.noConfusion this

/-- Arming a timer preserves the invariant, provided the target document
currently has no pending timer and its state exists with the right source,
and the captured content is the live content. -/
theorem inv_arm {cfg : Cfg} {w : World} {key captured : String} {now : Nat}
    (hen : w.enabled = true)
    (hlt : ∀ t ∈ w.timers, t.id < w.nextId)
    (hpw : w.timers.Pairwise (fun a b => a.id ≠ b.id))
    (hrefs : ∀ t ∈ w.timers, ∃ s, w.states t.key = some s ∧ s.timeout = some t.id)
    (hcaps : ∀ t ∈ w.timers, t.captured = w.live t.key)
    (hmats : ∀ t ∈ w.timers, cfg.matchers t.key = true)
    (hsrcs : ∀ k s, w.states k = some s → s.source = k)
    (hnokey : ∀ t ∈ w.timers, t.key ≠ key)
    (hm : cfg.matchers key = true)
    (hcap : w.live key = captured)
    (hsk : ∃ s, w.states key = some s) :
    Inv cfg (armTimer cfg w key captured now) := by
  obtain ⟨s0, hs0⟩ := hsk
  have hstates : (armTimer cfg w key captured now).states =
      upd w.states key (some { s0 with timeout := some w.nextId }) := by
    show upd w.states key ((w.states key).map _) = _
    rw [hs0]
    rfl
  have htimers : (armTimer cfg w key captured now).timers =
      w.timers ++ [⟨w.nextId, key, now + cfg.silenceMs, captured⟩] := rfl
  refine ⟨hen, ?_, ?_, ?_, ?_, ?_, ?_⟩
  · intro t ht
    rw [htimers] at ht
    show t.id < w.nextId + 1
    rcases List.mem_append.1 ht with ht' | ht'
    · exact Nat.lt_succ_of_lt (hlt t ht')
    · rw [List.mem_singleton] at ht'
      subst ht'
      exact Nat.lt_succ_self _
  · rw [htimers]
    refine List.pairwise_append.2 ⟨hpw, by simp, ?_⟩
    intro a ha b hb
    rw [List.mem_singleton] at hb
    subst hb
    exact Nat.ne_of_lt (hlt a ha)
  · intro t ht
    rw [htimers] at ht
    rw [hstates]
    rcases List.mem_append.1 ht with ht' | ht'
    · obtain ⟨s, hs, hto⟩ := hrefs t ht'
      refine ⟨s, ?_, hto⟩
      rw [upd_other _ _ _ _ (hnokey t ht')]
      exact hs
    · rw [List.mem_singleton] at ht'
      subst ht'
      exact ⟨{ s0 with timeout := some w.nextId }, upd_self _ _ _, rfl⟩
  · intro t ht
    rw [htimers] at ht
    show t.captured = w.live t.key
    rcases List.mem_append.1 ht with ht' | ht'
    · exact hcaps t ht'
    · rw [List.mem_singleton] at ht'
      subst ht'
      exact hcap.symm
  · intro t ht
    rw [htimers] at ht
    rcases List.mem_append.1 ht with ht' | ht'
    · exact hmats t ht'
    · rw [List.mem_singleton] at ht'
      subst ht'
      exact hm
  · rw [hstates]
    intro q s hks
    by_cases hk : q = key
    · rw [hk, upd_self] at hks
      cases hks
      rw [hk]
      show s0.source = key
      exact hsrcs _ _ hs0
    · rw [upd_other _ _ _ _ hk] at hks
      exact hsrcs _ _ hks

theorem inv_edit {cfg : Cfg} {w : World} (key content : String) (version now : Nat)
    (hInv : Inv cfg w) :
    Inv cfg (stepLabel cfg w (.edit key content version now)) := by
  set w1 := setLive w key content with hw1
  have hen : w1.enabled = true := hInv.en
  have hlive : ∀ q, q ≠ key → w1.live q = w.live q := by
    intro q hq
    simp [hw1, setLive, hq]
  by_cases hm : cfg.matchers key = true
  · rcases hs : w.states key with _ | st
    · rw [show stepLabel cfg w (.edit key content version now) =
          onTextDocumentChange cfg w1 key version now from rfl, onChange_new hen hm hs]
      refine inv_arm hInv.en hInv.idsLt hInv.idsDistinct ?_ ?_ hInv.mats ?_ ?_ hm rfl ?_
      · intro t ht
        obtain ⟨s, hts, hto⟩ := hInv.refs t ht
        refine ⟨s, ?_, hto⟩
        show upd w.states key _ t.key = some s
        rw [upd_other _ _ _ _ (no_timer_of_none hInv hs t ht)]
        exact hts
      · intro t ht
        have hne := no_timer_of_none hInv hs t ht
        show t.captured = w1.live t.key
        rw [hlive _ hne]
        exact hInv.caps t ht
      · show ∀ q s, upd w.states key _ q = some s → s.source = q
        intro q s hks
        by_cases hk : q = key
        · rw [hk, upd_self] at hks
          cases hks
          rw [hk]
        · rw [upd_other _ _ _ _ hk] at hks
          exact hInv.srcs _ _ hks
      · intro t ht
        exact no_timer_of_none hInv hs t ht
      · exact ⟨_, upd_self _ _ _⟩
    · rcases hto : st.timeout with _ | tid
      · rw [show stepLabel cfg w (.edit key content version now) =
            onTextDocumentChange cfg w1 key version now from rfl, onChange_idleState hen hm hs hto]
        refine inv_arm hInv.en hInv.idsLt hInv.idsDistinct ?_ ?_ hInv.mats ?_ ?_ hm rfl ?_
        · intro t ht
          obtain ⟨s, hts, hto'⟩ := hInv.refs t ht
          refine ⟨s, ?_, hto'⟩
          show upd w.states key _ t.key = some s
          rw [upd_other _ _ _ _ (no_timer_of_timeout_none hInv hs hto t ht)]
          exact hts
        · intro t ht
          have hne := no_timer_of_timeout_none hInv hs hto t ht
          show t.captured = w1.live t.key
          rw [hlive _ hne]
          exact hInv.caps t ht
        · show ∀ q s, upd w.states key _ q = some s → s.source = q
          intro q s hks
          by_cases hk : q = key
          · rw [hk, upd_self] at hks
            cases hks
            rw [hk]
          · rw [upd_other _ _ _ _ hk] at hks
            exact hInv.srcs _ _ hks
        · intro t ht
          exact no_timer_of_timeout_none hInv hs hto t ht
        · exact ⟨_, upd_self _ _ _⟩
      · rw [show stepLabel cfg w (.edit key content version now) =
            onTextDocumentChange cfg w1 key version now from rfl, onChange_pending hen hm hs hto]
        have hfil : ∀ t ∈ w.timers.filter (fun t => t.id != tid), t.key ≠ key := by
          intro t ht he
          rw [List.mem_filter] at ht
          have := timer_id_eq hInv hs t ht.1 he
          rw [hto] at this
          cases this
          simp at ht
        refine inv_arm hInv.en ?_ (hInv.idsDistinct.sublist (List.filter_sublist _)) ?_ ?_ ?_ ?_
          hfil hm rfl ?_
        · intro t ht
          exact hInv.idsLt t (List.mem_filter.1 ht).1
        · intro t ht
          obtain ⟨s, hts, hto'⟩ := hInv.refs t (List.mem_filter.1 ht).1
          refine ⟨s, ?_, hto'⟩
          show upd w.states key _ t.key = some s
          rw [upd_other _ _ _ _ (hfil t ht)]
          exact hts
        · intro t ht
          show t.captured = w1.live t.key
          rw [hlive _ (hfil t ht)]
          exact hInv.caps t (List.mem_filter.1 ht).1
        · intro t ht
          exact hInv.mats t (List.mem_filter.1 ht).1
        · show ∀ q s, upd w.states key _ q = some s → s.source = q
          intro q s hks
          by_cases hk : q = key
          · rw [hk, upd_self] at hks
            cases hks
            rw [hk]
          · rw [upd_other _ _ _ _ hk] at hks
            exact hInv.srcs _ _ hks
        · exact ⟨_, upd_self _ _ _⟩
  · have hm' : cfg.matchers key = false := by simpa using hm
    rw [show stepLabel cfg w (.edit key content version now) =
        onTextDocumentChange cfg w1 key version now from rfl, onChange_not_matched hen hm']
    refine ⟨hInv.en, hInv.idsLt, hInv.idsDistinct, hInv.refs, ?_, hInv.mats, hInv.srcs⟩
    intro t ht
    have hne : t.key ≠ key := by
      intro he
      have := hInv.mats t ht
      rw [he, hm'] at this
      exact Bool.noConfusion this
    show t.captured = w1.live t.key
    rw [hlive _ hne]
    exact hInv.caps t ht
theorem inv_close {cfg : Cfg} {w : World} (key : String) (hInv : Inv cfg w) :
    Inv cfg (stepLabel cfg w (.close key)) := by
  show Inv cfg (onTextDocumentClose w key)
  rcases hs : w.states key with _ | st
  · rw [close_none hs]
    exact hInv
  · have main : ∀ tl, (∀ t ∈ tl, t ∈ w.timers) → (∀ t ∈ tl, t.key ≠ key) →
        tl.Pairwise (fun a b => a.id ≠ b.id) →
        Inv cfg { w with timers := tl, states := upd w.states key none } := by
      intro tl hmem hkey hpw
      refine ⟨hInv.en, ?_, hpw, ?_, ?_, ?_, ?_⟩
      · intro t ht
        exact hInv.idsLt t (hmem t ht)
      · intro t ht
        obtain ⟨s, hts, hto'⟩ := hInv.refs t (hmem t ht)
        refine ⟨s, ?_, hto'⟩
        show upd w.states key none t.key = some s
        rw [upd_other _ _ _ _ (hkey t ht)]
        exact hts
      · intro t ht
        exact hInv.caps t (hmem t ht)
      · intro t ht
        exact hInv.mats t (hmem t ht)
      · intro q s hks
        replace hks : upd w.states key none q = some s := hks
        by_cases hk : q = key
        · rw [hk, upd_self] at hks
          exact Option.noConfusion hks
        · rw [upd_other _ _ _ _ hk] at hks
          exact hInv.srcs _ _ hks
    rcases hto : st.timeout with _ | tid
    · rw [close_idle hs hto]
      have := main w.timers (fun t ht => ht) (no_timer_of_timeout_none hInv hs hto)
        hInv.idsDistinct
      simpa using this
    · rw [close_pending hs hto]
      refine main _ (fun t ht => (List.mem_filter.1 ht).1) ?_
        (hInv.idsDistinct.sublist (List.filter_sublist _))
      intro t ht he
      rw [List.mem_filter] at ht
      have := timer_id_eq hInv hs t ht.1 he
      rw [hto] at this
      cases this
      simp at ht

theorem inv_fire {cfg : Cfg} {w : World} (tid : Nat) (hInv : Inv cfg w) :
    Inv cfg (stepLabel cfg w (.fire tid)) := by
  show Inv cfg (fireTimer w tid)
  rcases hfind : w.timers.find? (fun t => t.id == tid) with _ | t
  · rw [fire_missing hfind]
    exact hInv
  · have htmem : t ∈ w.timers := List.mem_of_find?_eq_some hfind
    have htid : t.id = tid := by
      have := List.find?_some hfind
      simpa using this
    have hmem : ∀ t2 ∈ w.timers.filter (fun t2 => t2.id != tid), t2 ∈ w.timers :=
      fun t2 ht2 => (List.mem_filter.1 ht2).1
    have hkey : ∀ t2 ∈ w.timers.filter (fun t2 => t2.id != tid), t2.key ≠ t.key := by
      intro t2 ht2 he
      rw [List.mem_filter] at ht2
      obtain ⟨s, hs, hto⟩ := hInv.refs t htmem
      have h2 := timer_id_eq hInv hs t2 ht2.1 he
      rw [hto] at h2
      have hid : t2.id = tid := by
        rw [← htid]
        exact (Option.some.inj h2).symm
      simpa [hid] using ht2.2
    obtain ⟨st, hs, -⟩ := hInv.refs t htmem
    rw [fire_found hfind, idle_some (show ({ w with
        timers := w.timers.filter (fun t2 => t2.id != tid) } : World).states t.key = some st
      from hs)]
    refine ⟨hInv.en, ?_, hInv.idsDistinct.sublist (List.filter_sublist _), ?_, ?_, ?_, ?_⟩
    · intro t2 ht2
      exact hInv.idsLt t2 (hmem t2 ht2)
    · intro t2 ht2
      obtain ⟨s, hts, hto'⟩ := hInv.refs t2 (hmem t2 ht2)
      refine ⟨s, ?_, hto'⟩
      show upd w.states t.key _ t2.key = some s
      rw [upd_other _ _ _ _ (hkey t2 ht2)]
      exact hts
    · intro t2 ht2
      exact hInv.caps t2 (hmem t2 ht2)
    · intro t2 ht2
      exact hInv.mats t2 (hmem t2 ht2)
    · intro q s hks
      replace hks : upd w.states t.key
          (some { st with timeout := none, lastContent := t.captured, changeCount := 0 }) q
          = some s := hks
      by_cases hk : q = t.key
      · rw [hk, upd_self] at hks
        cases hks
        rw [hk]
        show st.source = t.key
        exact hInv.srcs _ _ hs
      · rw [upd_other _ _ _ _ hk] at hks
        exact hInv.srcs _ _ hks

theorem inv_step {cfg : Cfg} {w : World} (l : Label) (hInv : Inv cfg w) :
    Inv cfg (stepLabel cfg w l) := by
  cases l with
  | edit key content version now => exact inv_edit key content version now hInv
  | close key => exact inv_close key hInv
  | fire tid => exact inv_fire tid hInv

theorem inv_init (cfg : Cfg) : Inv cfg initWorld := by
  refine ⟨rfl, ?_, ?_, ?_, ?_, ?_, ?_⟩ <;> simp [initWorld]

theorem inv_of_reachable {cfg : Cfg} {w : World} (h : Reachable cfg w) : Inv cfg w := by
  induction h with
  | init => exact inv_init cfg
  | step l _ ih => exact inv_step l ih

/-! ### Consequences of the invariant -/

theorem find_id {l : List Timer} (hpw : l.Pairwise (fun a b => a.id ≠ b.id)) {t : Timer}
    (ht : t ∈ l) : l.find? (fun t2 => t2.id == t.id) = some t := by
  induction l with
  | nil => cases ht
  | cons a l ih =>
    rw [List.pairwise_cons] at hpw
    rcases List.mem_cons.1 ht with rfl | ht'
    · simp
    · have hne : (a.id == t.id) = false := by simpa using hpw.1 t ht'
      simp only [List.find?, hne]
      exact ih hpw.2 ht'

/-- Each document key has at most one pending timer. -/
theorem count_le_one {cfg : Cfg} {w : World} (hInv : Inv cfg w) (k : String) :
    (w.timers.filter (fun t => t.key == k)).length ≤ 1 := by
  rcases hf : w.timers.filter (fun t => t.key == k) with _ | ⟨a, _ | ⟨b, l⟩⟩
  · simp [hf]
  · simp [hf]
  · exfalso
    have hsub : (a :: b :: l).Sublist w.timers := hf ▸ List.filter_sublist _
    have hpw := hInv.idsDistinct.sublist hsub
    rw [List.pairwise_cons] at hpw
    have hab : a.id ≠ b.id := hpw.1 b (List.mem_cons_self _ _)
    have ha : a ∈ w.timers ∧ (a.key == k) = true :=
      List.mem_filter.1 (hf ▸ (List.mem_cons_self a (b :: l)))
    have hb : b ∈ w.timers ∧ (b.key == k) = true :=
      List.mem_filter.1 (hf ▸ (List.mem_cons_of_mem a (List.mem_cons_self b l)))
    have hak : a.key = k := by simpa using ha.2
    have hbk : b.key = k := by simpa using hb.2
    obtain ⟨s, hs, -⟩ := hInv.refs a ha.1
    rw [hak] at hs
    have h1 := timer_id_eq hInv hs a ha.1 hak
    have h2 := timer_id_eq hInv hs b hb.1 hbk
    rw [h1] at h2
    exact hab (Option.some.inj h2)


/-! ### Quiet documents (for close-cleanup reasoning) -/

theorem onChange_events (cfg : Cfg) (w : World) (key : String) (version now : Nat) :
    (onTextDocumentChange cfg w key version now).events = w.events := by
  rcases hen : w.enabled with _ | _
  · rw [onChange_disabled hen]
  · by_cases hm : cfg.matchers key = true
    · rcases hs : w.states key with _ | st
      · rw [onChange_new hen hm hs]
        rfl
      · rcases hto : st.timeout with _ | tid
        · rw [onChange_idleState hen hm hs hto]
          rfl
        · rw [onChange_pending hen hm hs hto]
          rfl
    · rw [onChange_not_matched hen (by simpa using hm)]

theorem onChange_states_other (cfg : Cfg) (w : World) {key : String} (version now : Nat)
    {q : String} (hq : q ≠ key) :
    (onTextDocumentChange cfg w key version now).states q = w.states q := by
  rcases hen : w.enabled with _ | _
  · rw [onChange_disabled hen]
  · by_cases hm : cfg.matchers key = true
    · rcases hs : w.states key with _ | st
      · rw [onChange_new hen hm hs]
        show upd (upd w.states key _) key _ q = w.states q
        rw [upd_other _ _ _ _ hq, upd_other _ _ _ _ hq]
      · rcases hto : st.timeout with _ | tid
        · rw [onChange_idleState hen hm hs hto]
          show upd (upd w.states key _) key _ q = w.states q
          rw [upd_other _ _ _ _ hq, upd_other _ _ _ _ hq]
        · rw [onChange_pending hen hm hs hto]
          show upd (upd w.states key _) key _ q = w.states q
          rw [upd_other _ _ _ _ hq, upd_other _ _ _ _ hq]
    · rw [onChange_not_matched hen (by simpa using hm)]

theorem onChange_timerKeys (cfg : Cfg) (w : World) (key : String) (version now : Nat) :
    ∀ t ∈ (onTextDocumentChange cfg w key version now).timers,
      t ∈ w.timers ∨ t.key = key := by
  intro t ht
  rcases hen : w.enabled with _ | _
  · rw [onChange_disabled hen] at ht
    exact Or.inl ht
  · by_cases hm : cfg.matchers key = true
    · rcases hs : w.states key with _ | st
      · rw [onChange_new hen hm hs] at ht
        rcases List.mem_append.1 ht with ht' | ht'
        · exact Or.inl ht'
        · rw [List.mem_singleton] at ht'
          subst ht'
          exact Or.inr rfl
      · rcases hto : st.timeout with _ | tid
        · rw [onChange_idleState hen hm hs hto] at ht
          rcases List.mem_append.1 ht with ht' | ht'
          · exact Or.inl ht'
          · rw [List.mem_singleton] at ht'
            subst ht'
            exact Or.inr rfl
        · rw [onChange_pending hen hm hs hto] at ht
          rcases List.mem_append.1 ht with ht' | ht'
          · exact Or.inl (List.mem_filter.1 ht').1
          · rw [List.mem_singleton] at ht'
            subst ht'
            exact Or.inr rfl
    · rw [onChange_not_matched hen (by simpa using hm)] at ht
      exact Or.inl ht

theorem close_events (w : World) (key : String) :
    (onTextDocumentClose w key).events = w.events := by
  rcases hcase : w.states key with _ | st
  · rw [close_none hcase]
  · rcases hto : st.timeout with _ | tid
    · rw [close_idle hcase hto]
    · rw [close_pending hcase hto]

theorem close_states_key (w : World) (key : String) :
    (onTextDocumentClose w key).states key = none := by
  rcases hcase : w.states key with _ | st
  · rw [close_none hcase]
    exact hcase
  · rcases hto : st.timeout with _ | tid
    · rw [close_idle hcase hto]
      exact upd_self _ _ _
    · rw [close_pending hcase hto]
      exact upd_self _ _ _

theorem close_states_other (w : World) (key : String) {q : String} (hq : q ≠ key) :
    (onTextDocumentClose w key).states q = w.states q := by
  rcases hcase : w.states key with _ | st
  · rw [close_none hcase]
  · rcases hto : st.timeout with _ | tid
    · rw [close_idle hcase hto]
      exact upd_other _ _ _ _ hq
    · rw [close_pending hcase hto]
      exact upd_other _ _ _ _ hq

theorem close_timers_subset (w : World) (key : String) :
    ∀ t ∈ (onTextDocumentClose w key).timers, t ∈ w.timers := by
  intro t ht
  rcases hcase : w.states key with _ | st
  · rw [close_none hcase] at ht
    exact ht
  · rcases hto : st.timeout with _ | tid
    · rw [close_idle hcase hto] at ht
      exact ht
    · rw [close_pending hcase hto] at ht
      exact (List.mem_filter.1 ht).1

/-- After a close, the closed document is fully untracked: no state entry
and no pending timer. -/
theorem quiet_after_close {cfg : Cfg} {w : World} (hInv : Inv cfg w) (k : String) :
    Quiet k (onTextDocumentClose w k) := by
  refine ⟨close_states_key w k, ?_⟩
  intro t ht he
  have htw : t ∈ w.timers := close_timers_subset w k t ht
  rcases hcase : w.states k with _ | st
  · exact no_timer_of_none hInv hcase t htw he
  · rcases hto : st.timeout with _ | tid
    · exact no_timer_of_timeout_none hInv hcase hto t htw he
    · have hid := timer_id_eq hInv hcase t htw he
      rw [hto] at hid
      have : t.id = tid := (Option.some.inj hid).symm
      rw [close_pending hcase hto] at ht
      rw [List.mem_filter] at ht
      simp [this] at ht

theorem filter_single_false {α : Type} (p : α → Bool) (l : List α) (e : α)
    (h : p e = false) : (l ++ [e]).filter p = l.filter p := by
  rw [List.filter_append, List.filter_cons, h]
  simp

/-- A step that is not an edit of `k` keeps an untracked `k` untracked and
emits no event for `k`. -/
theorem quiet_preserved {cfg : Cfg} {w : World} {k : String} (hInv : Inv cfg w)
    {l : Label} (hQ : Quiet k w) (hl : l.isEditOn k = false) :
    Quiet k (stepLabel cfg w l) ∧
      (stepLabel cfg w l).events.filter (fun e => e.document == k) =
        w.events.filter (fun e => e.document == k) := by
  obtain ⟨hnone, hnok⟩ := hQ
  cases l with
  | edit key content version now =>
    have hkne : key ≠ k := by simpa [Label.isEditOn] using hl
    refine ⟨⟨?_, ?_⟩, ?_⟩
    · show (onTextDocumentChange cfg (setLive w key content) key version now).states k = none
      rw [onChange_states_other cfg (setLive w key content) version now (Ne.symm hkne)]
      exact hnone
    · intro t ht
      rcases onChange_timerKeys cfg (setLive w key content) key version now t ht with ht' | hkey'
      · exact hnok t ht'
      · rw [hkey']
        exact hkne
    · show (onTextDocumentChange cfg (setLive w key content) key version now).events.filter _ = _
      rw [onChange_events]
      rfl
  | close key =>
    refine ⟨⟨?_, ?_⟩, ?_⟩
    · by_cases hk : k = key
      · subst hk
        exact close_states_key w k
      · show (onTextDocumentClose w key).states k = none
        rw [close_states_other w key hk]
        exact hnone
    · intro t ht
      exact hnok t (close_timers_subset w key t ht)
    · show (onTextDocumentClose w key).events.filter _ = _
      rw [close_events]
  | fire tid =>
    show Quiet k (fireTimer w tid) ∧ (fireTimer w tid).events.filter _ = _
    rcases hfind : w.timers.find? (fun t => t.id == tid) with _ | t
    · rw [fire_missing hfind]
      exact ⟨⟨hnone, hnok⟩, rfl⟩
    · have htmem := List.mem_of_find?_eq_some hfind
      have htk : t.key ≠ k := hnok t htmem
      obtain ⟨st, hs, -⟩ := hInv.refs t htmem
      have hsrc : st.source = t.key := hInv.srcs _ _ hs
      rw [fire_found hfind,
        idle_some (show ({ w with timers := w.timers.filter (fun t2 => t2.id != tid) } :
          World).states t.key = some st from hs)]
      refine ⟨⟨?_, ?_⟩, ?_⟩
      · show upd w.states t.key _ k = none
        rw [upd_other _ _ _ _ (Ne.symm htk)]
        exact hnone
      · intro t2 ht2
        exact hnok t2 (List.mem_filter.1 ht2).1
      · show (w.events ++ [_]).filter _ = _
        refine filter_single_false _ _ _ ?_
        simp [hsrc, htk]

/-- Running non-`k` events keeps `k` untracked and adds no `k` events. -/
theorem quiet_run {cfg : Cfg} {k : String} (ls : List Label) :
    ∀ w : World, Inv cfg w → Quiet k w → (∀ l ∈ ls, l.isEditOn k = false) →
      Quiet k (runLabels cfg w ls) ∧
        (runLabels cfg w ls).events.filter (fun e => e.document == k) =
          w.events.filter (fun e => e.document == k) := by
  induction ls with
  | nil =>
    intro w _ hQ _
    exact ⟨hQ, rfl⟩
  | cons l ls ih =>
    intro w hInv hQ hl
    have h1 := quiet_preserved hInv hQ (hl l (List.mem_cons_self _ _))
    have h2 := ih (stepLabel cfg w l) (inv_step l hInv) h1.1
      (fun l' hl' => hl l' (List.mem_cons_of_mem _ hl'))
    refine ⟨h2.1, ?_⟩
    show (runLabels cfg (stepLabel cfg w l) ls).events.filter _ = _
    exact h2.2.trans h1.2

/-! ### The debounce round: world shape between edits -/

theorem World.ext' {w1 w2 : World} (h1 : w1.enabled = w2.enabled)
    (h2 : w1.states = w2.states) (h3 : w1.timers = w2.timers)
    (h4 : w1.live = w2.live) (h5 : w1.nextId = w2.nextId)
    (h6 : w1.events = w2.events) : w1 = w2 := by
  cases w1
  cases w2
  simp_all

theorem first_edit (cfg : Cfg) (key c1 : String) (v1 t1 : Nat)
    (hm : cfg.matchers key = true) :
    stepLabel cfg initWorld (.edit key c1 v1 t1) = midWorld cfg key c1 c1 v1 1 0 t1 := by
  rw [show stepLabel cfg initWorld (.edit key c1 v1 t1) =
      onTextDocumentChange cfg (setLive initWorld key c1) key v1 t1 from rfl,
    onChange_new rfl hm rfl]
  refine World.ext' rfl ?_ ?_ ?_ rfl rfl
  · funext q
    by_cases hq : q = key
    · subst hq
      simp [armTimer, setLive, initWorld, midWorld, upd]
    · simp [armTimer, setLive, initWorld, midWorld, upd, hq]
  · simp [armTimer, setLive, initWorld, midWorld]
  · funext q
    by_cases hq : q = key
    · subst hq
      simp [armTimer, setLive, initWorld, midWorld]
    · simp [armTimer, setLive, initWorld, midWorld, hq]

theorem next_edit (cfg : Cfg) (key c1 ck c' : String) (vk v' k i tk t' : Nat)
    (hm : cfg.matchers key = true) (ht : t' < tk + cfg.silenceMs) :
    stepLabel cfg
      (fireAllDue (midWorld cfg key c1 ck vk k i tk).timers.length
        (midWorld cfg key c1 ck vk k i tk) t')
      (.edit key c' v' t') = midWorld cfg key c1 c' v' (k + 1) (i + 1) t' := by
  have hno : fireAllDue (midWorld cfg key c1 ck vk k i tk).timers.length
      (midWorld cfg key c1 ck vk k i tk) t' = midWorld cfg key c1 ck vk k i tk := by
    show fireAllDue 1 _ _ = _
    rw [fireAllDue]
    have hfind : (midWorld cfg key c1 ck vk k i tk).timers.find?
        (fun t => t.deadline ≤ t') = none := by
      simp only [midWorld, List.find?]
      rw [show (decide ((⟨i, key, tk + cfg.silenceMs, ck⟩ : Timer).deadline ≤ t')) = false
        from by simp; omega]
    rw [hfind]
  rw [hno]
  have hs : (setLive (midWorld cfg key c1 ck vk k i tk) key c').states key =
      some { timeout := some i, lastLength := ck.length, lastVersion := vk,
             lastContent := c1, changeCount := k, source := key } := by
    simp [setLive, midWorld]
  rw [show stepLabel cfg (midWorld cfg key c1 ck vk k i tk) (.edit key c' v' t') =
      onTextDocumentChange cfg (setLive (midWorld cfg key c1 ck vk k i tk) key c')
        key v' t' from rfl,
    onChange_pending rfl hm hs rfl]
  refine World.ext' rfl ?_ ?_ ?_ rfl rfl
  · funext q
    by_cases hq : q = key
    · subst hq
      simp [armTimer, setLive, midWorld, upd]
    · simp [armTimer, setLive, midWorld, upd, hq]
  · simp [armTimer, setLive, midWorld]
  · funext q
    by_cases hq : q = key
    · subst hq
      simp [armTimer, setLive, midWorld]
    · simp [armTimer, setLive, midWorld, hq]

theorem process_rest (cfg : Cfg) (key c1 : String) :
    ∀ (rest : List (String × Nat × Nat)) (ck : String) (vk k i tk : Nat),
      cfg.matchers key = true → timesOk cfg.silenceMs tk rest = true →
      processEdits cfg key (midWorld cfg key c1 ck vk k i tk) rest =
        midWorld cfg key c1 (lastD (ck, vk, tk) rest).1 (lastD (ck, vk, tk) rest).2.1
          (k + rest.length) (i + rest.length) (lastD (ck, vk, tk) rest).2.2 := by
  intro rest
  induction rest with
  | nil =>
    intro ck vk k i tk hm ht
    simp [processEdits, lastD]
  | cons e rest ih =>
    intro ck vk k i tk hm ht
    obtain ⟨c', v', t'⟩ := e
    rw [timesOk] at ht
    simp only [Bool.and_eq_true, decide_eq_true_eq] at ht
    obtain ⟨⟨ht1, ht2⟩, ht3⟩ := ht
    show processEdits cfg key
      (stepLabel cfg (fireAllDue (midWorld cfg key c1 ck vk k i tk).timers.length
        (midWorld cfg key c1 ck vk k i tk) t') (.edit key c' v' t')) rest = _
    rw [next_edit cfg key c1 ck c' vk v' k i tk t' hm ht2,
      ih c' v' (k + 1) (i + 1) t' hm ht3]
    have hl : lastD (ck, vk, tk) ((c', v', t') :: rest) = lastD (c', v', t') rest := rfl
    rw [hl, show k + ((c', v', t') :: rest).length = k + 1 + rest.length from by
        simp; omega,
      show i + ((c', v', t') :: rest).length = i + 1 + rest.length from by
        simp; omega]

theorem flush_mid (cfg : Cfg) (key c1 cN : String) (vN N i tN : Nat) :
    (flushAll (midWorld cfg key c1 cN vN N i tN).timers.length
        (midWorld cfg key c1 cN vN N i tN)).events =
      [{ document := key, previousContent := c1, currentContent := cN,
         changesSinceLastIdle := N }] ∧
    (flushAll (midWorld cfg key c1 cN vN N i tN).timers.length
        (midWorld cfg key c1 cN vN N i tN)).states key =
      some { timeout := none, lastLength := cN.length, lastVersion := vN,
             lastContent := cN, changeCount := 0, source := key } := by
  have hfind : (midWorld cfg key c1 cN vN N i tN).timers.find? (fun t => t.id == i) =
      some ⟨i, key, tN + cfg.silenceMs, cN⟩ := by
    simp [midWorld]
  have hs : ({ midWorld cfg key c1 cN vN N i tN with
      timers := (midWorld cfg key c1 cN vN N i tN).timers.filter
        (fun t2 => t2.id != i) } : World).states key =
      some { timeout := some i, lastLength := cN.length, lastVersion := vN,
             lastContent := c1, changeCount := N, source := key } := by
    simp [midWorld]
  have hstep : flushAll (midWorld cfg key c1 cN vN N i tN).timers.length
      (midWorld cfg key c1 cN vN N i tN) =
      fireTimer (midWorld cfg key c1 cN vN N i tN) i := by
    show flushAll 1 _ = _
    rw [flushAll]
    rfl
  rw [hstep, fire_found hfind, idle_some hs]
  constructor
  · show (midWorld cfg key c1 cN vN N i tN).events ++ [_] = _
    simp [midWorld]
  · show upd _ key _ key = _
    rw [upd_self]

/-! ### Cleaned command lines are non-empty and trimmed -/

theorem noLead_dropWhile (l : Str) : noLead (l.dropWhile isSpaceChar) = true := by
  induction l with
  | nil => rfl
  | cons c cs ih =>
    cases hc : isSpaceChar c with
    | true =>
      rw [List.dropWhile_cons, if_pos hc]
      exact ih
    | false =>
      rw [List.dropWhile_cons, if_neg (by simp [hc])]
      simp [noLead, hc]

theorem dropWhile_suffix' (p : Char → Bool) (l : Str) : l.dropWhile p <:+ l := by
  induction l with
  | nil => exact List.suffix_refl _
  | cons c cs ih =>
    cases hc : p c with
    | true =>
      rw [List.dropWhile_cons, if_pos hc]
      exact ih.trans (List.suffix_cons c cs)
    | false =>
      rw [List.dropWhile_cons, if_neg (by simp [hc])]

theorem noLead_of_prefix {x l : Str} (h : x <+: l) (hl : noLead l = true) :
    noLead x = true := by
  cases x with
  | nil => rfl
  | cons c cs =>
    obtain ⟨t, ht⟩ := h
    cases l with
    | nil => exact absurd ht (by simp)
    | cons d ds =>
      simp only [List.cons_append] at ht
      have hc : c = d := (List.cons.inj ht).1
      subst hc
      simp only [noLead] at hl ⊢
      exact hl

theorem noTrail_of_suffix {x l : Str} (h : x <:+ l) (hl : noTrail l = true) :
    noTrail x = true :=
  noLead_of_prefix (List.reverse_prefix.mpr h) hl

theorem dropTrail_prefixOf (l : Str) : dropTrail l <+: l := by
  have h2 : (dropTrail l).reverse <:+ l.reverse := by
    simpa [dropTrail] using dropWhile_suffix' isSpaceChar l.reverse
  exact List.reverse_suffix.mp h2

theorem trim_noLead (l : Str) : noLead (trimChars l) = true :=
  noLead_of_prefix (dropTrail_prefixOf _) (noLead_dropWhile l)

theorem trim_noTrail (l : Str) : noTrail (trimChars l) = true := by
  show noLead (trimChars l).reverse = true
  rw [trimChars, dropTrail, List.reverse_reverse]
  exact noLead_dropWhile _

theorem trim_of_stable {l : Str} (h1 : noLead l = true) (h2 : noTrail l = true) :
    trimChars l = l := by
  have hd : l.dropWhile isSpaceChar = l := by
    cases l with
    | nil => rfl
    | cons c cs =>
      have h1' : isSpaceChar c = false := by simpa [noLead] using h1
      rw [List.dropWhile_cons, if_neg (by simp [h1'])]
  rw [trimChars, hd, dropTrail]
  have hd2 : l.reverse.dropWhile isSpaceChar = l.reverse := by
    rcases hr : l.reverse with _ | ⟨c, cs⟩
    · rfl
    · rw [noTrail, hr] at h2
      have h2' : isSpaceChar c = false := by simpa [noLead] using h2
      rw [List.dropWhile_cons, if_neg (by simp [h2'])]
  rw [hd2, List.reverse_reverse]

theorem stripDollar_cases (l : Str) :
    stripDollar l = l ∨ ∃ r, r <:+ l ∧ stripDollar l = r.dropWhile isSpaceChar := by
  unfold stripDollar
  split
  · split
    · next c rest h =>
      exact Or.inr ⟨c :: rest, ⟨['$'], rfl⟩, rfl⟩
    · exact Or.inl rfl
  · exact Or.inl rfl

theorem stripPS_cases (l : Str) :
    stripPS l = l ∨ ∃ r, r <:+ l ∧ stripPS l = r.dropWhile isSpaceChar := by
  unfold stripPS
  split
  · next rest =>
    split
    · next r2 heq =>
      refine Or.inr ⟨r2, ?_, rfl⟩
      have h1 : r2 <:+ rest.dropWhile isSpaceChar := by
        rw [heq]
        exact List.suffix_cons '>' r2
      exact (h1.trans (dropWhile_suffix' _ rest)).trans ⟨['P', 'S'], rfl⟩
    · exact Or.inl rfl
  · exact Or.inl rfl

theorem afterLastGt_suffix (l : Str) : afterLastGt l <:+ l := by
  have h : (afterLastGt l).reverse <+: l.reverse := by
    simpa [afterLastGt] using List.takeWhile_prefix (l := l.reverse) (fun c => c != '>')
  exact List.reverse_prefix.mp h

theorem stripCPath_cases (l : Str) :
    stripCPath l = l ∨ ∃ r, r <:+ l ∧ stripCPath l = r.dropWhile isSpaceChar := by
  unfold stripCPath
  split
  · next rest =>
    split
    · exact Or.inr ⟨afterLastGt rest, (afterLastGt_suffix rest).trans ⟨['C', ':', '\\'], rfl⟩, rfl⟩
    · exact Or.inl rfl
  · exact Or.inl rfl

theorem stripGt_cases (l : Str) :
    stripGt l = l ∨ ∃ r, r <:+ l ∧ stripGt l = r.dropWhile isSpaceChar := by
  unfold stripGt
  split
  · split
    · next c rest h =>
      exact Or.inr ⟨c :: rest, ⟨['>'], rfl⟩, rfl⟩
    · exact Or.inl rfl
  · exact Or.inl rfl

theorem stable_strip {f : Str → Str}
    (hf : ∀ l, f l = l ∨ ∃ r, r <:+ l ∧ f l = r.dropWhile isSpaceChar) {l : Str}
    (h1 : noLead l = true) (h2 : noTrail l = true) :
    noLead (f l) = true ∧ noTrail (f l) = true := by
  rcases hf l with h | ⟨r, hr, he⟩
  · rw [h]
    exact ⟨h1, h2⟩
  · rw [he]
    exact ⟨noLead_dropWhile r, noTrail_of_suffix ((dropWhile_suffix' _ r).trans hr) h2⟩

/-- A line the cleaning loop keeps is non-empty and carries no leading or
trailing whitespace. -/
theorem processLine_some {l0 cmd : Str} (h : processLine l0 = some cmd) :
    cmd ≠ [] ∧ trimChars cmd = cmd := by
  simp only [processLine] at h
  split at h
  · exact Option.noConfusion h
  · split at h
    · exact Option.noConfusion h
    · split at h
      · exact Option.noConfusion h
      · split at h
        · exact Option.noConfusion h
        · split at h
          · exact Option.noConfusion h
          · rename_i hne hout
            cases h
            have s0 : noLead (trimChars l0) = true ∧ noTrail (trimChars l0) = true :=
              ⟨trim_noLead l0, trim_noTrail l0⟩
            have s1 := stable_strip stripDollar_cases s0.1 s0.2
            have s2 := stable_strip stripPS_cases s1.1 s1.2
            have s3 := stable_strip stripCPath_cases s2.1 s2.2
            have s4 := stable_strip stripGt_cases s3.1 s3.2
            refine ⟨?_, trim_of_stable s4.1 s4.2⟩
            intro he
            exact hne (by rw [he]; rfl)

theorem mem_parse {content cmd : Str} (h : cmd ∈ parseCommandsFromBlock content) :
    cmd ≠ [] ∧ trimChars cmd = cmd := by
  obtain ⟨l0, -, hl0⟩ := List.mem_filterMap.1 h
  exact processLine_some hl0

/-! ### The block-selection and hint structure of `extractCommands` -/

theorem mem_of_getLast?_eq_some {α : Type} {l : List α} {b : α}
    (h : l.getLast? = some b) : b ∈ l := by
  obtain ⟨hne, he⟩ := List.mem_getLast?_eq_getLast (show b ∈ l.getLast? from h)
  rw [he]
  exact List.getLast_mem hne

theorem hintFold_fst (acc : List Str × Option Str) (b : RawBlock) :
    (hintFold acc b).1 = acc.1 ++ parseCommandsFromBlock b.content := by
  unfold hintFold
  split <;> rfl

theorem mem_foldl_hintFold {cmd : Str} :
    ∀ (bs : List RawBlock) (acc : List Str × Option Str),
      cmd ∈ (bs.foldl hintFold acc).1 →
      cmd ∈ acc.1 ∨ ∃ b ∈ bs, cmd ∈ parseCommandsFromBlock b.content := by
  intro bs
  induction bs with
  | nil =>
    intro acc h
    exact Or.inl h
  | cons b bs ih =>
    intro acc h
    rw [List.foldl_cons] at h
    rcases ih _ h with h' | ⟨b', hb', hc⟩
    · rw [hintFold_fst] at h'
      rcases List.mem_append.1 h' with h'' | h''
      · exact Or.inl h''
      · exact Or.inr ⟨b, List.mem_cons_self _ _, h''⟩
    · exact Or.inr ⟨b', List.mem_cons_of_mem _ hb', hc⟩

theorem foldl_hintFold_snd :
    ∀ (bs : List RawBlock) (acc : List Str × Option Str),
      (bs.foldl hintFold acc).2 = acc.2 ∨
        ∃ b ∈ bs, shellLanguages.contains b.language = true ∧
          (bs.foldl hintFold acc).2 = some b.language := by
  intro bs
  induction bs with
  | nil =>
    intro acc
    exact Or.inl rfl
  | cons b bs ih =>
    intro acc
    rw [List.foldl_cons]
    rcases ih (hintFold acc b) with h | ⟨b', hb', hc, he⟩
    · rw [h]
      unfold hintFold
      split
      · rename_i hcond
        have hcond' : acc.2.isNone = true ∧ shellLanguages.contains b.language = true := by
          simpa using hcond
        exact Or.inr ⟨b, List.mem_cons_self _ _, hcond'.2, rfl⟩
      · exact Or.inl rfl
    · exact Or.inr ⟨b', List.mem_cons_of_mem _ hb', hc, he⟩

/-- The candidate set of an extraction is the first non-empty stage. -/
theorem extract_rawBlocks (text : Str) (r : Bool) :
    (extractCommands text r).rawBlocks =
      (if (if (stageA (scanFenced text)).isEmpty then stageB (scanFenced text)
           else stageA (scanFenced text)).isEmpty
       then stageC text (scanFenced text)
       else if (stageA (scanFenced text)).isEmpty then stageB (scanFenced text)
            else stageA (scanFenced text)) := by
  simp only [extractCommands, apply_ite ExtractedCommands.rawBlocks, ite_self]

theorem mem_ite_nil_elim {α : Type} {c : Prop} [Decidable c] {l : List α} {a : α}
    (h : a ∈ (if c then [] else l)) : a ∈ l := by
  split at h
  · exact absurd h (List.not_mem_nil _)
  · exact h

/-- With the default recent-text policy the extracted commands are exactly
the cleaned lines of the last candidate block. -/
theorem extract_commands_last (text : Str) {b : RawBlock}
    (hlast : (extractCommands text true).rawBlocks.getLast? = some b) :
    (extractCommands text true).commands = parseCommandsFromBlock b.content := by
  rw [extract_rawBlocks] at hlast
  simp only [extractCommands, apply_ite ExtractedCommands.commands]
  generalize hgen : (if (if (stageA (scanFenced text)).isEmpty then stageB (scanFenced text)
      else stageA (scanFenced text)).isEmpty
    then stageC text (scanFenced text)
    else if (stageA (scanFenced text)).isEmpty then stageB (scanFenced text)
    else stageA (scanFenced text)) = cb at hlast ⊢
  have hne : cb.isEmpty = false := by
    rcases cb with _ | ⟨x, xs⟩
    · simp at hlast
    · rfl
  rw [hne]
  show (List.foldl hintFold ([], none)
    (if true = true then
      (match cb.getLast? with
       | some b => [b]
       | none => []) else cb)).1 = _
  rw [if_pos rfl, hlast]
  show (List.foldl hintFold ([], none) [b]).1 = _
  rw [List.foldl_cons, List.foldl_nil, hintFold_fst]
  simp

/-- Every extracted command is a cleaned line of some block. -/
theorem mem_extract_commands {text : Str} {r : Bool} {cmd : Str}
    (h : cmd ∈ (extractCommands text r).commands) :
    ∃ content, cmd ∈ parseCommandsFromBlock content := by
  simp only [extractCommands, apply_ite ExtractedCommands.commands] at h
  have h2 := mem_ite_nil_elim h
  rcases mem_foldl_hintFold _ _ h2 with h' | ⟨b, -, hc⟩
  · exact absurd h' (List.not_mem_nil _)
  · exact ⟨b.content, hc⟩

/-- Exact integer reading of the strict-majority ratio test. -/
theorem ratio_iff (m n : Nat) (hn : 0 < n) :
    ((m : ℚ) / (n : ℚ) > 1 / 2) ↔ 2 * m > n := by
  have hn' : (0 : ℚ) < n := by exact_mod_cast hn
  rw [gt_iff_lt, lt_div_iff₀ hn', div_mul_eq_mul_div,
    div_lt_iff₀ (by norm_num : (0 : ℚ) < 2), one_mul]
  rw [show ((m : ℚ) * 2) = ((2 * m : ℕ) : ℚ) from by push_cast; ring]
  exact_mod_cast Iff.rfl

/-! ## The claims -/

/-- C1: for a document accepted by the matchers, a sequence of edits each
arriving strictly before the silence duration has elapsed since the
previous one produces no idle event while the edits keep arriving, and
exactly one idle event once the full silence duration passes with no
further edit; that event's change count is the number of edits, and the
stored change count is reset to 0 afterwards. -/
theorem claim_C1 (cfg : Cfg) (key c1 : String) (v1 t1 : Nat)
    (rest : List (String × Nat × Nat))
    (hm : cfg.matchers key = true)
    (ht : timesOk cfg.silenceMs t1 rest = true) :
    (processEdits cfg key initWorld ((c1, v1, t1) :: rest)).events = [] ∧
    (runTrace cfg key ((c1, v1, t1) :: rest)).events =
      [{ document := key, previousContent := c1,
         currentContent := (lastD (c1, v1, t1) rest).1,
         changesSinceLastIdle := ((c1, v1, t1) :: rest).length }] ∧
    ∃ s, (runTrace cfg key ((c1, v1, t1) :: rest)).states key = some s ∧
      s.changeCount = 0 := by
  have hmid : processEdits cfg key initWorld ((c1, v1, t1) :: rest) =
      midWorld cfg key c1 (lastD (c1, v1, t1) rest).1 (lastD (c1, v1, t1) rest).2.1
        (1 + rest.length) (0 + rest.length) (lastD (c1, v1, t1) rest).2.2 := by
    show processEdits cfg key
      (stepLabel cfg (fireAllDue initWorld.timers.length initWorld t1)
        (.edit key c1 v1 t1)) rest = _
    rw [show fireAllDue initWorld.timers.length initWorld t1 = initWorld from rfl,
      first_edit cfg key c1 v1 t1 hm,
      process_rest cfg key c1 rest c1 v1 1 0 t1 hm ht]
  have hlen : ((c1, v1, t1) :: rest).length = 1 + rest.length := by
    simp [Nat.add_comm]
  have hrun : runTrace cfg key ((c1, v1, t1) :: rest) =
      flushAll (processEdits cfg key initWorld ((c1, v1, t1) :: rest)).timers.length
        (processEdits cfg key initWorld ((c1, v1, t1) :: rest)) := rfl
  have hf := flush_mid cfg key c1 (lastD (c1, v1, t1) rest).1 (lastD (c1, v1, t1) rest).2.1
    (1 + rest.length) (0 + rest.length) (lastD (c1, v1, t1) rest).2.2
  refine ⟨?_, ?_, ?_⟩
  · rw [hmid]
    rfl
  · rw [hrun, hmid, hlen]
    exact hf.1
  · rw [hrun, hmid]
    exact ⟨_, hf.2, rfl⟩

theorem claim_C1_witness :
    (runTrace cfgAll "chat" [("a", 1, 0), ("ab", 2, 700)]).events =
      [{ document := "chat", previousContent := "a", currentContent := "ab",
         changesSinceLastIdle := 2 }] := by
  have h := claim_C1 cfgAll "chat" "a" 1 0 [("ab", 2, 700)] rfl (by decide)
  simpa [lastD] using h.2.1

/-- C5: when a pending debounce timer of a reachable detector state fires
with no intervening edit (any observed edit would have cancelled it), the
emitted idle event carries the content cached from the previous round as
its previous content, the document's live content at fire time as its
current content, and the accumulated change count. -/
theorem claim_C5 {cfg : Cfg} {w : World} (hr : Reachable cfg w) {t : Timer}
    (ht : t ∈ w.timers) :
    ∃ s, w.states t.key = some s ∧
      (fireTimer w t.id).events = w.events ++
        [{ document := t.key, previousContent := s.lastContent,
           currentContent := w.live t.key, changesSinceLastIdle := s.changeCount }] := by
  have hInv := inv_of_reachable hr
  obtain ⟨s, hs, -⟩ := hInv.refs t ht
  refine ⟨s, hs, ?_⟩
  have hfind : w.timers.find? (fun t2 => t2.id == t.id) = some t :=
    find_id hInv.idsDistinct ht
  rw [fire_found hfind, idle_some (show ({ w with
      timers := w.timers.filter (fun t2 => t2.id != t.id) } : World).states t.key = some s
    from hs)]
  show w.events ++ [_] = w.events ++ [_]
  rw [hInv.srcs _ _ hs, hInv.caps t ht]

theorem claim_C5_witness :
    ∃ s, demoWorld.states "k" = some s ∧
      (fireTimer demoWorld demoTimer.id).events = demoWorld.events ++
        [{ document := demoTimer.key, previousContent := s.lastContent,
           currentContent := demoWorld.live demoTimer.key,
           changesSinceLastIdle := s.changeCount }] := by
  have hr : Reachable cfgAll demoWorld :=
    Reachable.step (Label.edit "k" "hello" 1 0) Reachable.init
  have hmem : demoTimer ∈ demoWorld.timers := by decide
  exact claim_C5 hr hmem

/-- C6: in every reachable detector state each document has at most one
pending debounce timer, and an edit of a document always cancels that
document's pending timer before arming the fresh one. -/
theorem claim_C6 {cfg : Cfg} {w : World} (hr : Reachable cfg w) :
    (∀ k, (w.timers.filter (fun t => t.key == k)).length ≤ 1) ∧
    (∀ t ∈ w.timers, ∀ content version now,
      t ∉ (stepLabel cfg w (.edit t.key content version now)).timers) := by
  have hInv := inv_of_reachable hr
  refine ⟨fun k => count_le_one hInv k, ?_⟩
  intro t ht content version now
  obtain ⟨s, hs, hto⟩ := hInv.refs t ht
  have hm : cfg.matchers t.key = true := hInv.mats t ht
  have hs' : (setLive w t.key content).states t.key = some s := hs
  have hen' : (setLive w t.key content).enabled = true := hInv.en
  rw [show stepLabel cfg w (.edit t.key content version now) =
      onTextDocumentChange cfg (setLive w t.key content) t.key version now from rfl,
    onChange_pending hen' hm hs' hto]
  intro hmem
  rcases List.mem_append.1 hmem with h' | h'
  · rw [List.mem_filter] at h'
    exact absurd h'.2 (by simp)
  · rw [List.mem_singleton] at h'
    have hlt := hInv.idsLt t ht
    rw [h'] at hlt
    simp [setLive] at hlt

theorem claim_C6_witness :
    (demoWorld.timers.filter (fun t => t.key == "k")).length ≤ 1 := by
  have hr : Reachable cfgAll demoWorld :=
    Reachable.step (Label.edit "k" "hello" 1 0) Reachable.init
  exact (claim_C6 hr).1 "k"

/-- C7: closing a tracked document cancels its timer and removes its state,
and as long as no new edit of that document arrives, no later host event
can emit an idle event for it. -/
theorem claim_C7 {cfg : Cfg} {w : World} (hr : Reachable cfg w) (k : String)
    (ls : List Label) (hls : ∀ l ∈ ls, l.isEditOn k = false) :
    (onTextDocumentClose w k).states k = none ∧
    (∀ t ∈ (onTextDocumentClose w k).timers, t.key ≠ k) ∧
    (runLabels cfg (onTextDocumentClose w k) ls).events.filter
      (fun e => e.document == k) = w.events.filter (fun e => e.document == k) := by
  have hInv := inv_of_reachable hr
  have hq := quiet_after_close hInv k
  refine ⟨hq.1, hq.2, ?_⟩
  have hInv' : Inv cfg (onTextDocumentClose w k) := inv_close k hInv
  have h := quiet_run ls (onTextDocumentClose w k) hInv' hq hls
  rw [h.2, close_events]

theorem claim_C7_witness :
    (onTextDocumentClose demoWorld "k").states "k" = none ∧
      (runLabels cfgAll (onTextDocumentClose demoWorld "k") [Label.fire 0]).events.filter
        (fun e => e.document == "k") =
        demoWorld.events.filter (fun e => e.document == "k") := by
  have hr : Reachable cfgAll demoWorld :=
    Reachable.step (Label.edit "k" "hello" 1 0) Reachable.init
  have h := claim_C7 hr "k" [Label.fire 0] (by decide)
  exact ⟨h.1, h.2.2⟩

/-- C2: the candidate set of an extraction comes from exactly one stage of
the fallback chain: stage A (explicitly shell-tagged blocks) when it is
non-empty; stage B (untagged or generic-tagged shell-shaped blocks) only
when stage A is empty; stage C (keyword-preceded shell-shaped blocks) only
when stages A and B are both empty.  Candidates of different stages are
never merged. -/
theorem claim_C2 (text : Str) (r : Bool) :
    (stageA (scanFenced text) ≠ [] →
      (extractCommands text r).rawBlocks = stageA (scanFenced text)) ∧
    (stageA (scanFenced text) = [] → stageB (scanFenced text) ≠ [] →
      (extractCommands text r).rawBlocks = stageB (scanFenced text)) ∧
    (stageA (scanFenced text) = [] → stageB (scanFenced text) = [] →
      (extractCommands text r).rawBlocks = stageC text (scanFenced text)) := by
  refine ⟨?_, ?_, ?_⟩
  · intro hA
    have h1 : (stageA (scanFenced text)).isEmpty = false := List.isEmpty_eq_false.mpr hA
    rw [extract_rawBlocks]
    simp [h1]
  · intro hA hB
    have h1 : (stageA (scanFenced text)).isEmpty = true := by simp [hA]
    have h2 : (stageB (scanFenced text)).isEmpty = false := List.isEmpty_eq_false.mpr hB
    rw [extract_rawBlocks]
    simp [h1, h2]
  · intro hA hB
    have h1 : (stageA (scanFenced text)).isEmpty = true := by simp [hA]
    have h2 : (stageB (scanFenced text)).isEmpty = true := by simp [hB]
    rw [extract_rawBlocks]
    simp [h1, h2]

theorem claim_C2_witness :
    (extractCommands (str "run this\n```\nnpm install\nnpm run build\n```\n") true).rawBlocks =
      stageB (scanFenced (str "run this\n```\nnpm install\nnpm run build\n```\n")) :=
  (claim_C2 (str "run this\n```\nnpm install\nnpm run build\n```\n") true).2.1
    (by decide) (by decide)

/-- C3: with the default recent-text policy, when more than one block
qualifies as a candidate, the extracted commands are exactly the cleaned
command lines of the last candidate block in source order, in block
order — no command of an earlier candidate block appears. -/
theorem claim_C3 (text : Str) (b : RawBlock)
    (_hlen : 1 < (extractCommands text true).rawBlocks.length)
    (hlast : (extractCommands text true).rawBlocks.getLast? = some b) :
    (extractCommands text true).commands = parseCommandsFromBlock b.content :=
  extract_commands_last text hlast

theorem claim_C3_witness :
    (extractCommands (str "```bash\nnpm install\n```\nok\n```bash\ngit status\n```\n")
      true).commands = parseCommandsFromBlock (str "git status") := by
  have h := claim_C3 (str "```bash\nnpm install\n```\nok\n```bash\ngit status\n```\n")
    { language := str "bash", content := str "git status", startIndex := 27, endIndex := 49 }
    (by decide) (by decide)
  exact h

/-- C4 as stated is false on the code: an explicitly `bash`-tagged block
whose only line is a comment yields no commands, yet the language hint is
set to `bash` from the block tag before any command is parsed. -/
theorem claim_C4_counterexample :
    ¬ ((extractCommands (str "```bash\n# install deps\n```") true).commands = [] →
      (extractCommands (str "```bash\n# install deps\n```") true).languageHint = none) := by
  decide

/-- C4 (amended): if the extraction result's commands list is empty, its
language hint can only come from a selected candidate block's explicit
recognized shell tag; the inference step never produces a hint without at
least one extracted command. -/
theorem claim_C4_amended (text : Str) (r : Bool)
    (h : (extractCommands text r).commands = []) :
    (extractCommands text r).languageHint = none ∨
      ∃ b ∈ (extractCommands text r).rawBlocks,
        shellLanguages.contains b.language = true ∧
        (extractCommands text r).languageHint = some b.language := by
  simp only [extractCommands, apply_ite ExtractedCommands.commands,
    apply_ite ExtractedCommands.languageHint, apply_ite ExtractedCommands.rawBlocks,
    ite_self] at h ⊢
  generalize hgen : (if (if (stageA (scanFenced text)).isEmpty then stageB (scanFenced text)
      else stageA (scanFenced text)).isEmpty
    then stageC text (scanFenced text)
    else if (stageA (scanFenced text)).isEmpty then stageB (scanFenced text)
    else stageA (scanFenced text)) = cb at h ⊢
  by_cases hcb : cb.isEmpty = true
  · rw [if_pos hcb]
    exact Or.inl rfl
  · rw [if_neg hcb] at h ⊢
    rw [h]
    simp only [List.isEmpty_nil, Bool.not_true, Bool.and_false, Bool.false_eq_true, if_false]
    rcases foldl_hintFold_snd
        (if r = true then
          (match cb.getLast? with
           | some b => [b]
           | none => []) else cb) ([], none) with h2 | ⟨b, hb, hcont, he⟩
    · exact Or.inl h2
    · refine Or.inr ⟨b, ?_, hcont, he⟩
      by_cases hr : r = true
      · rw [if_pos hr] at hb
        rcases hlast : cb.getLast? with _ | b'
        · rw [hlast] at hb
          exact absurd hb (List.not_mem_nil _)
        · rw [hlast] at hb
          replace hb : b ∈ [b'] := hb
          rw [List.mem_singleton] at hb
          subst hb
          exact mem_of_getLast?_eq_some hlast
      · rw [if_neg hr] at hb
        exact hb

theorem claim_C4_amended_witness :
    (extractCommands (str "```bash\n# install deps\n```") true).languageHint = none ∨
      ∃ b ∈ (extractCommands (str "```bash\n# install deps\n```") true).rawBlocks,
        shellLanguages.contains b.language = true ∧
        (extractCommands (str "```bash\n# install deps\n```") true).languageHint =
          some b.language :=
  claim_C4_amended (str "```bash\n# install deps\n```") true (by decide)

/-- C8: a matcher whose pattern evaluation throws does not propagate the
error: that matcher is treated as not matching and the remaining matchers
are still evaluated (the function is total, returning a boolean for every
input). -/
theorem claim_C8 (test : String → String → Except String Bool) (doc : Document)
    (pre post : List ChatMatcher) (m : ChatMatcher) (e : String)
    (herr : matcherEval test m doc = .error e) :
    matchesChat test (pre ++ m :: post) doc = matchesChat test (pre ++ post) doc := by
  induction pre with
  | nil =>
    show matchesChat test (m :: post) doc = matchesChat test post doc
    rw [matchesChat, herr]
  | cons m0 pre ih =>
    show matchesChat test (m0 :: (pre ++ m :: post)) doc =
      matchesChat test (m0 :: (pre ++ post)) doc
    simp only [matchesChat]
    rcases heval : matcherEval test m0 doc with e0 | b
    · exact ih
    · cases b
      · exact ih
      · rfl

theorem claim_C8_witness :
    matchesChat testW ([] ++ badMatcher :: [goodMatcher]) docW =
      matchesChat testW ([] ++ [goodMatcher]) docW :=
  claim_C8 testW docW [] [goodMatcher] badMatcher "invalid" rfl

/-- C9: a block qualifies as shell-shaped exactly when strictly more than
half of its non-empty trimmed lines match one of the fixed command
patterns; a block with zero non-empty lines never qualifies, and a
single-line block qualifies exactly when that line matches a pattern. -/
theorem claim_C9 (content : Str) :
    (looksLikeShellCommands content = true ↔
      (((nonEmptyTrimmedLines content).filter matchesShellPattern).length : ℚ) /
        ((nonEmptyTrimmedLines content).length : ℚ) > 1 / 2) ∧
    (nonEmptyTrimmedLines content = [] → looksLikeShellCommands content = false) ∧
    (∀ ln, nonEmptyTrimmedLines content = [ln] →
      (looksLikeShellCommands content = true ↔ matchesShellPattern ln = true)) := by
  refine ⟨?_, ?_, ?_⟩
  · rcases Nat.eq_zero_or_pos (nonEmptyTrimmedLines content).length with hn | hn
    · have hnil : nonEmptyTrimmedLines content = [] := List.length_eq_zero.mp hn
      norm_num [looksLikeShellCommands, hnil]
    · rw [show looksLikeShellCommands content =
          decide (2 * ((nonEmptyTrimmedLines content).filter matchesShellPattern).length >
            (nonEmptyTrimmedLines content).length) from by
        simp only [looksLikeShellCommands]
        rw [if_neg (by omega)]]
      simp only [decide_eq_true_eq]
      exact (ratio_iff _ _ hn).symm
  · intro h
    simp [looksLikeShellCommands, h]
  · intro ln h
    simp only [looksLikeShellCommands, h]
    rw [if_neg (by simp)]
    cases hp : matchesShellPattern ln with
    | true => simp [hp]
    | false => simp [hp]

theorem claim_C9_witness :
    looksLikeShellCommands (str "ls -la") = true ∧
      looksLikeShellCommands (str "") = false := by
  constructor
  · exact ((claim_C9 (str "ls -la")).2.2 (str "ls -la") (by decide)).mpr (by decide)
  · exact (claim_C9 (str "")).2.1 (by decide)

/-- C10: every extracted command string is non-empty and equal to its own
trim: the commands list never contains a blank entry or one with leading
or trailing whitespace. -/
theorem claim_C10 (text : Str) (r : Bool) (cmd : Str)
    (h : cmd ∈ (extractCommands text r).commands) :
    cmd ≠ [] ∧ trimChars cmd = cmd := by
  obtain ⟨content, hc⟩ := mem_extract_commands h
  exact mem_parse hc

theorem claim_C10_witness :
    str "npm install" ≠ [] ∧ trimChars (str "npm install") = str "npm install" :=
  claim_C10 (str "```bash\n$ npm install\n```") true (str "npm install") (by decide)

end VibeNotify
